import Mathlib

/-!
Shallow embedding of the lens composition engine of `@dhmk/zustand-lens`
(`src/core.ts`): the path accessor `createLens`, the tree walker
`findLensAndCreate`, and the `atomic` batching middleware, together with the
small set of collaborator operations from `@dhmk/utils` and the external
`zustand` container that the engine calls (`getIn`, `setIn`, `shallowEqual`,
`isPlainObject`, `setState` merge semantics).

JavaScript values are modelled by `JVal`.  Reference identity of objects is
modelled by a numeric id carried on every object: all allocation sites
(object spreads, `setIn` ancestor copies, container merges) take an explicit
fresh-id supply, and theorems that speak about reference identity carry a
freshness hypothesis.  `Object.is` on two live objects is then id equality.
Symbol-keyed metadata (the `meta` symbol holding a `postprocess` hook) is
modelled by an optional index `pp` into an ambient environment `PPEnv` of
postprocess functions, because storing the function itself inside `JVal`
would be a negative occurrence.
-/

/-- A JavaScript runtime value, as far as the engine observes it:
`undefined` (undefined), numeric and string primitives, plain objects (with an
identity id, an optional `[meta].postprocess` hook index and an ordered
string-keyed field list), and `other` for any non-plain object (array,
function, class instance) of which the engine only ever observes identity. -/
inductive JVal where
  | undefined
  | prim (n : Int)
  | str (s : String)
  | obj (id : Nat) (pp : Option Nat) (fields : List (String × JVal))
  | other (id : Nat)

/-- `Object.is`: value equality on primitives, reference (id) equality on
objects.  Sound under the discipline that distinct live objects carry
distinct ids. -/
def jIs : JVal → JVal → Bool
  | .undefined, .undefined => true
  | .prim a, .prim b => a == b
  | .str a, .str b => a == b
  | .obj i _ _, .obj j _ _ => i == j
  | .other i, .other j => i == j
  | _, _ => false

theorem jIs_refl (v : JVal) : jIs v v = true := by
  cases v <;> simp [jIs]

/-- `isPlainObject` from `@dhmk/utils`: true exactly for plain objects. -/
def isPlainObject : JVal → Bool
  | .obj _ _ _ => true
  | _ => false

/-- Own string-keyed fields of a value; non-objects contribute none
(as in an object spread `{...x}` of a non-object). -/
def fieldsOf : JVal → List (String × JVal)
  | .obj _ _ fs => fs
  | _ => []

/-- The `[meta].postprocess` hook index attached to a value, if any. -/
def ppOf : JVal → Option Nat
  | .obj _ p _ => p
  | _ => none

/-- The identity id of an object value, if it is one. -/
def idOf : JVal → Option Nat
  | .obj i _ _ => some i
  | .other i => some i
  | _ => none

/-- JavaScript truthiness, restricted to the values of the model. -/
def truthy : JVal → Bool
  | .undefined => false
  | .prim n => n != 0
  | .str s => s != ""
  | .obj _ _ _ => true
  | .other _ => true

/-- First-match lookup in an ordered field list (JS property access). -/
def lookupF : List (String × JVal) → String → Option JVal
  | [], _ => none
  | (k, v) :: rest, key => if k == key then some v else lookupF rest key

/-- Property write on an ordered field list: an existing key keeps its
position, a new key is appended (JS object literal / assignment order). -/
def setField : List (String × JVal) → String → JVal → List (String × JVal)
  | [], k, x => [(k, x)]
  | (k, v) :: rest, key, x =>
    if k == key then (key, x) :: rest else (k, v) :: setField rest key x

/-- Fold the fields of `ys` over `xs` in order, overriding existing keys and
appending new ones: the field part of `{...a, ...b}` / `Object.assign`. -/
def mergeF (xs : List (String × JVal)) : List (String × JVal) → List (String × JVal)
  | [] => xs
  | (k, v) :: rest => mergeF (setField xs k v) rest

/-- Object spread `{...a, ...b}` allocating a fresh object: later spread
wins on string fields and on the symbol-keyed `meta` hook; spreading a
non-object contributes nothing. -/
def spread2 (id : Nat) (a b : JVal) : JVal :=
  .obj id ((ppOf b).orElse fun _ => ppOf a) (mergeF (fieldsOf a) (fieldsOf b))

/-- `Object.assign(target, src)`: mutates `target` in place (identity
preserved), copying the string fields and any `meta` hook of `src` over it. -/
def objAssign (t s : JVal) : JVal :=
  match t with
  | .obj i p fs => .obj i ((ppOf s).orElse fun _ => p) (mergeF fs (fieldsOf s))
  | x => x

/-- `shallowEqual` from `@dhmk/utils`: `Object.is`, or for two plain objects
the same number of string keys with `Object.is`-equal values key by key. -/
def shallowEqual (a b : JVal) : Bool :=
  if jIs a b then true
  else
    match a, b with
    | .obj _ _ fa, .obj _ _ fb =>
      (fa.length == fb.length) &&
        fa.all fun kv =>
          match lookupF fb kv.1 with
          | some w => jIs kv.2 w
          | none => false
    | _, _ => false

/-- Child projection `v?.[k]`: field lookup on a plain object, `undefined`
otherwise (absent keys and non-object intermediates both yield
`undefined`). -/
def childAt (v : JVal) (k : String) : JVal :=
  match v with
  | .obj _ _ fs => (lookupF fs k).getD .undefined
  | _ => .undefined

/-- `getIn` from `@dhmk/utils` as the spec describes the collaborator:
project a value along a key path, yielding `undefined` as soon as an
intermediate node is absent or not an object, instead of throwing. -/
def getIn (v : JVal) : List String → JVal
  | [] => v
  | k :: ks => getIn (childAt v k) ks

/-- `setIn` from `@dhmk/utils` as the spec describes the collaborator:
splice `x` into `v` at `path`, shallow-copying every ancestor along the
path (each copy is a freshly allocated wrapper, ids `fresh`, `fresh+1`, …)
while all sibling fields are carried over by reference. -/
def setIn (fresh : Nat) (v : JVal) : List String → JVal → JVal
  | [], x => x
  | k :: ks, x =>
    .obj fresh (ppOf v) (setField (fieldsOf v) k (setIn (fresh + 1) (childAt v k) ks x))

/-- Occurrence of an object id anywhere in a value tree; used to state that
an allocation is fresh (its id occurs nowhere in the pre-existing state). -/
inductive IdOccurs : Nat → JVal → Prop where
  | objHere (i : Nat) (p : Option Nat) (fs : List (String × JVal)) :
      IdOccurs i (.obj i p fs)
  | otherHere (i : Nat) : IdOccurs i (.other i)
  | inField (i j : Nat) (p : Option Nat) (fs : List (String × JVal))
      (k : String) (v : JVal) :
      (k, v) ∈ fs → IdOccurs i v → IdOccurs i (.obj j p fs)

/-! ## The path accessor `createLens` (src/core.ts lines 41-112)

`createLens(set, get, path)` returns a scoped `[_set, _get]` pair.  The
scoped setter builds an updater closure and forwards it to the root setter;
the closure is modelled by `lensUpdater` below, a direct transcription of
the body of the arrow function at src/core.ts lines 59-103.  Its free
inputs are made explicit parameters: the ambient postprocess environment
`env` (what `x[meta]?.postprocess` dereferences to), the normalized path,
the `partial` argument, the `replace` flag, the extra arguments, the value
the independent `get()` call returns while the updater runs, a fresh-id
supply for the object allocations it performs, and finally the
`parentValue` the root setter passes in. -/

/-- Postprocess environment: interpretation of `meta` hook indices.  A hook
receives `(state, prevState, ...args)` and returns a partial (or `undefined`
for a hook that returns nothing). -/
def PPEnv := Nat → JVal → JVal → List JVal → JVal

/-- `x[meta]?.postprocess?.(state, prev, ...args)`: run the hook attached
to `holder` (`undefined` when none is attached, matching optional chaining). -/
def runPP (env : PPEnv) (holder prev : JVal) (args : List JVal) : JVal :=
  match ppOf holder with
  | some i => env i holder prev args
  | none => .undefined

/-- The `partial` argument of a setter: a plain value or a function of the
old scoped value (`SetParameter` in src/core.ts lines 21-25). -/
inductive SetParam where
  | val (v : JVal)
  | fn (f : JVal → JVal)

/-- `typeof partial === "function" ? partial(ourOldValue) : partial`. -/
def applyPartial (sp : SetParam) (old : JVal) : JVal :=
  match sp with
  | .val v => v
  | .fn f => f old

/-- `normPath ? getIn(x, normPath) : x` — the scoped projection used for
both `ourOldValue` (on `parentValue`) and `ourOldValue2` (on `get()`). -/
def projAt (np : Option (List String)) (x : JVal) : JVal :=
  match np with
  | some p => getIn x p
  | none => x

/-- The draft-branch effect (src/core.ts lines 71-77): assign a truthy
partial's own properties onto the draft in place, run the hook now attached
to the draft with `(draft, ourOldValue2, ...args)`, and merge a truthy
returned partial back into the draft. -/
def draftFinal (env : PPEnv) (tmp old old2 : JVal) (args : List JVal) : JVal :=
  let d1 := if truthy tmp then objAssign old tmp else old
  let pp := runPP env d1 old2 args
  if truthy pp then objAssign d1 pp else d1

/-- `ourNextValue` of the non-draft branch (src/core.ts lines 79-93):
`replace || !isPlain ? ourTmpValue : {...ourOldValue, ...ourTmpValue}`,
then for a plain old value
`{...ourTmpValue2, ...ourTmpValue2[meta]?.postprocess?.(ourTmpValue2, ourOldValue, ...args)}`. -/
def nextValueD (env : PPEnv) (np : Option (List String)) (sp : SetParam)
    (replace : Bool) (args : List JVal) (fresh : Nat) (pv : JVal) : JVal :=
  let old := projAt np pv
  let tmp := applyPartial sp old
  let tmp2 := if replace || !(isPlainObject old) then tmp else spread2 fresh old tmp
  if isPlainObject old then spread2 (fresh + 1) tmp2 (runPP env tmp2 old args)
  else tmp2

/-- `isSame` (src/core.ts lines 95-97): shallow key-by-key equality when
the old scoped value is a plain object, `Object.is` otherwise. -/
def isSameJ (old next : JVal) : Bool :=
  if isPlainObject old then shallowEqual old next else jIs old next

/-- What the updater closure hands back to the root setter: a replacement
root value, or no value (`return;`) after having mutated the draft, whose
final content is recorded. -/
inductive UpdResult where
  | ret (v : JVal)
  | draftWrite (d : JVal)

/-- The updater closure passed to the root setter (src/core.ts lines
59-103), transcribed clause by clause: read the old scoped value off
`parentValue`; apply a function-form partial; detect a draft by reference
inequality against an independent `get()` projection; in the draft branch
mutate the draft and return nothing; otherwise merge (or replace), apply
the postprocess hook, and return `parentValue` itself when the result is
`isSame`, else the root value with the next value spliced in at the path. -/
def lensUpdater (env : PPEnv) (np : Option (List String)) (sp : SetParam)
    (replace : Bool) (args : List JVal) (rootGetVal : JVal) (fresh : Nat)
    (pv : JVal) : UpdResult :=
  let old := projAt np pv
  let old2 := projAt np rootGetVal
  if isPlainObject old && !(jIs old old2) then
    .draftWrite (draftFinal env (applyPartial sp old) old old2 args)
  else
    let next := nextValueD env np sp replace args fresh pv
    if isSameJ old next then .ret pv
    else
      match np with
      | some p => .ret (setIn (fresh + 2) pv p next)
      | none => .ret next

/-- One invocation of the scoped setter `_set`, recorded as the triple of
arguments it forwards to the root setter (src/core.ts lines 57-107): the
updater closure, the replace flag — forced to `false` whenever a path is
present, forwarded verbatim in pathless mode — and the extra arguments
unchanged. -/
structure RootCall where
  updater : JVal → UpdResult
  replace : Bool
  args : List JVal

/-- The scoped setter `_set` of `createLens`. -/
def scopedSet (env : PPEnv) (np : Option (List String)) (sp : SetParam)
    (replace : Bool) (args : List JVal) (rootGetVal : JVal) (fresh : Nat) :
    RootCall :=
  { updater := lensUpdater env np sp replace args rootGetVal fresh
    replace := match np with | some _ => false | none => replace
    args := args }

/-- The scoped getter `_get` of `createLens` (src/core.ts line 109):
`() => (normPath ? getIn(get(), normPath) : get())`. -/
def scopedGet (np : Option (List String)) (rootVal : JVal) : JVal :=
  match np with
  | some p => getIn rootVal p
  | none => rootVal

/-! ## Claims about the path accessor: C1, C2, C3 -/

/-- Projection of the replacement value an updater returned (`undefined` for a
draft write, which returns no replacement). -/
def retOf : UpdResult → JVal
  | .ret v => v
  | .draftWrite _ => .undefined

/-- An empty postprocess environment: no `meta` hook does anything. -/
def env0 : PPEnv := fun _ _ _ _ => .undefined

/-- C1: for a scoped setter with a path, when the write is not a draft
write and the computed next scoped value is `isSame` as the old scoped
value (shallow key-by-key equality for a plain-object old value, identity
otherwise), the updater returns the parent value itself — the very same
root value, so no new Root State object is created. -/
theorem createLens_noop_returns_parent (env : PPEnv) (p : List String)
    (sp : SetParam) (replace : Bool) (args : List JVal) (rootGetVal : JVal)
    (fresh : Nat) (pv : JVal)
    (hnodraft : (isPlainObject (getIn pv p) &&
      !(jIs (getIn pv p) (getIn rootGetVal p))) = false)
    (hsame : isSameJ (getIn pv p)
      (nextValueD env (some p) sp replace args fresh pv) = true) :
    lensUpdater env (some p) sp replace args rootGetVal fresh pv = .ret pv := by
  simp only [lensUpdater, projAt] at hnodraft hsame ⊢
  simp [hnodraft, hsame]

/-- Old scoped value used by the C1/C2 witnesses:`{id: 1, prop: "abc"}`. -/
def oldW : JVal := .obj 1 none [("id", .prim 1), ("prop", .str "abc")]

/-- Root value holding `oldW` at path `["sub"]`. -/
def pvW : JVal := .obj 0 none [("sub", oldW)]

/-- C1 witness: writing `{id: 1, prop: "abc"}` over itself (shallow-equal
recomputation) returns the parent value unchanged. -/
theorem createLens_noop_returns_parent_witness :
    ((isPlainObject (getIn pvW ["sub"]) &&
        !(jIs (getIn pvW ["sub"]) (getIn pvW ["sub"]))) = false)
    ∧ (isSameJ (getIn pvW ["sub"])
        (nextValueD env0 (some ["sub"])
          (.val (.obj 2 none [("id", .prim 1), ("prop", .str "abc")]))
          false [] 50 pvW) = true)
    ∧ lensUpdater env0 (some ["sub"])
        (.val (.obj 2 none [("id", .prim 1), ("prop", .str "abc")]))
        false [] pvW 50 pvW = .ret pvW :=
  ⟨rfl, rfl,
    createLens_noop_returns_parent env0 ["sub"]
      (.val (.obj 2 none [("id", .prim 1), ("prop", .str "abc")]))
      false [] pvW 50 pvW rfl rfl⟩

/-- JS string concatenation `old.prop + "-def"` (on a string value). -/
def strConcat (v : JVal) (tail : String) : JVal :=
  match v with
  | .str s => .str (s ++ tail)
  | x => x

/-- The function-form partial of C2: `old => ({prop: old.prop + "-def"})`. -/
def fnPartialC2 : JVal → JVal :=
  fun old => .obj 3 none [("prop", strConcat (childAt old "prop") "-def")]

/-- C2: over the old scoped value `{id:1, prop:"abc"}` (non-draft case),
a plain partial `{prop:"def"}` without replace shallow-merges to
`{id:1, prop:"def"}`; `{prop:"qwe"}` with `replace=true` yields exactly
`{prop:"qwe"}` with the `id` key dropped; and the function-form partial
`old => ({prop: old.prop + "-def"})` is applied to the old scoped value
before merging, yielding `{id:1, prop:"abc-def"}`. -/
theorem createLens_merge_replace_fn_semantics :
    fieldsOf (getIn (retOf (lensUpdater env0 (some ["sub"])
        (.val (.obj 2 none [("prop", .str "def")])) false [] pvW 50 pvW))
        ["sub"]) = [("id", .prim 1), ("prop", .str "def")]
    ∧ fieldsOf (getIn (retOf (lensUpdater env0 (some ["sub"])
        (.val (.obj 2 none [("prop", .str "qwe")])) true [] pvW 50 pvW))
        ["sub"]) = [("prop", .str "qwe")]
    ∧ fieldsOf (getIn (retOf (lensUpdater env0 (some ["sub"])
        (.fn fnPartialC2) false [] pvW 50 pvW))
        ["sub"]) = [("id", .prim 1), ("prop", .str "abc-def")] :=
  ⟨rfl, rfl, rfl⟩

/-- C3: a scoped setter with a non-empty path always forwards to the root
setter with the replace flag forced to `false` — regardless of the replace
flag of the scoped call — together with the updater closure and all extra
trailing arguments unchanged; in pathless mode the replace flag is
forwarded verbatim instead. -/
theorem scopedSet_forces_replace_false (env : PPEnv) (p : List String)
    (_hp : p ≠ []) (sp : SetParam) (replace : Bool) (args : List JVal)
    (rootGetVal : JVal) (fresh : Nat) :
    ((scopedSet env (some p) sp replace args rootGetVal fresh).replace = false
      ∧ (scopedSet env (some p) sp replace args rootGetVal fresh).updater
          = lensUpdater env (some p) sp replace args rootGetVal fresh
      ∧ (scopedSet env (some p) sp replace args rootGetVal fresh).args = args)
    ∧ (scopedSet env none sp replace args rootGetVal fresh).replace = replace :=
  ⟨⟨rfl, rfl, rfl⟩, rfl⟩

/-- C3 witness: calling the scoped setter at path `["sub"]` with
`(value, true, "x", "y", "z")` invokes the root setter with
`(updater, false, "x", "y", "z")`. -/
theorem scopedSet_forces_replace_false_witness :
    (["sub"] ≠ ([] : List String))
    ∧ ((scopedSet env0 (some ["sub"]) (.val oldW) true
          [.str "x", .str "y", .str "z"] pvW 50).replace = false
      ∧ (scopedSet env0 (some ["sub"]) (.val oldW) true
          [.str "x", .str "y", .str "z"] pvW 50).updater
          = lensUpdater env0 (some ["sub"]) (.val oldW) true
              [.str "x", .str "y", .str "z"] pvW 50
      ∧ (scopedSet env0 (some ["sub"]) (.val oldW) true
          [.str "x", .str "y", .str "z"] pvW 50).args
          = [.str "x", .str "y", .str "z"])
    ∧ (scopedSet env0 none (.val oldW) true
        [.str "x", .str "y", .str "z"] pvW 50).replace = true :=
  ⟨by decide,
    (scopedSet_forces_replace_false env0 ["sub"] (by decide) (.val oldW) true
      [.str "x", .str "y", .str "z"] pvW 50).1,
    (scopedSet_forces_replace_false env0 ["sub"] (by decide) (.val oldW) true
      [.str "x", .str "y", .str "z"] pvW 50).2⟩

/-! ## Claims C9 (scoped getter), C7 (draft writes), C10 (void updaters) -/

theorem getIn_append (v : JVal) (p1 p2 : List String) :
    getIn v (p1 ++ p2) = getIn (getIn v p1) p2 := by
  induction p1 generalizing v with
  | nil => rfl
  | cons k ks ih => simp [getIn, ih]

theorem getIn_undefined (p : List String) : getIn .undefined p = .undefined := by
  induction p with
  | nil => rfl
  | cons k ks ih => simp [getIn, childAt, ih]

/-- C9: the scoped getter returns exactly the projection of the root value
along the path, and whenever an intermediate node along the path is absent
(projects to `undefined`), the scoped getter returns `undefined` rather
than failing. -/
theorem scopedGet_projects_path :
    (∀ (v : JVal) (p : List String), scopedGet (some p) v = getIn v p)
    ∧ (∀ (v : JVal) (p1 : List String) (k : String) (p2 : List String),
        childAt (getIn v p1) k = .undefined →
        scopedGet (some (p1 ++ k :: p2)) v = .undefined) := by
  refine ⟨fun v p => rfl, fun v p1 k p2 h => ?_⟩
  simp [scopedGet, getIn_append, getIn, h, getIn_undefined]

/-- C9 witness: projecting `{}` along `["a", "b"]` hits the absent key
`"a"` and yields `undefined`. -/
theorem scopedGet_projects_path_witness :
    childAt (getIn (.obj 0 none []) []) "a" = .undefined
    ∧ scopedGet (some ([] ++ "a" :: ["b"])) (.obj 0 none []) = .undefined :=
  ⟨rfl, scopedGet_projects_path.2 (.obj 0 none []) [] "a" ["b"] rfl⟩

/-- C7: when the old scoped value read off the parent value is a plain
object that differs by reference from the independent `rootGet()`
projection at the same path, the write is a draft-style write: the
(possibly function-produced) partial's own properties are assigned onto
the draft in place, the postprocess hook now attached to the draft is
invoked with the mutated draft, the independently fetched old value and
the extra arguments, a truthy returned partial is merged back into the
draft, and the updater returns no replacement value. -/
theorem createLens_draft_branch (env : PPEnv) (p : List String)
    (sp : SetParam) (replace : Bool) (args : List JVal) (rootGetVal : JVal)
    (fresh : Nat) (pv : JVal)
    (hplain : isPlainObject (getIn pv p) = true)
    (hdiff : jIs (getIn pv p) (getIn rootGetVal p) = false) :
    lensUpdater env (some p) sp replace args rootGetVal fresh pv =
      .draftWrite
        (let d0 := getIn pv p
         let tmp := applyPartial sp d0
         let d1 := if truthy tmp then objAssign d0 tmp else d0
         let ppv := runPP env d1 (getIn rootGetVal p) args
         if truthy ppv then objAssign d1 ppv else d1) := by
  simp only [lensUpdater, projAt, draftFinal]
  simp [hplain, hdiff]

/-- Postprocess environment whose only hook returns `{y: 7}`. -/
def envY : PPEnv := fun _ _ _ _ => .obj 99 none [("y", .prim 7)]

/-- Parent value of the C7 witness: the draft at `["s"]` carries hook 0. -/
def pvDraft : JVal := .obj 0 none [("s", .obj 5 (some 0) [("x", .prim 1)])]

/-- Independent `rootGet()` value of the C7 witness: a different object
(id 6) at the same path, so the reference comparison detects a draft. -/
def rootDraft : JVal := .obj 0 none [("s", .obj 6 none [("x", .prim 1)])]

/-- C7 witness: with a draft at `["s"]`, writing `{x: 2}` assigns onto the
draft in place (identity 5 preserved), the hook's returned `{y: 7}` is
merged back, and no replacement value is returned. -/
theorem createLens_draft_branch_witness :
    isPlainObject (getIn pvDraft ["s"]) = true
    ∧ jIs (getIn pvDraft ["s"]) (getIn rootDraft ["s"]) = false
    ∧ lensUpdater envY (some ["s"]) (.val (.obj 7 none [("x", .prim 2)]))
        false [] rootDraft 50 pvDraft =
      .draftWrite
        (let d0 := getIn pvDraft ["s"]
         let tmp := applyPartial (.val (.obj 7 none [("x", .prim 2)])) d0
         let d1 := if truthy tmp then objAssign d0 tmp else d0
         let ppv := runPP envY d1 (getIn rootDraft ["s"]) []
         if truthy ppv then objAssign d1 ppv else d1) :=
  ⟨rfl, rfl,
    createLens_draft_branch envY ["s"] (.val (.obj 7 none [("x", .prim 2)]))
      false [] rootDraft 50 pvDraft rfl rfl⟩

theorem lookupF_of_nodup_mem {fs : List (String × JVal)} {k : String}
    {v : JVal} (hnd : (fs.map Prod.fst).Nodup) (hm : (k, v) ∈ fs) :
    lookupF fs k = some v := by
  induction fs with
  | nil => cases hm
  | cons hd tl ih =>
    obtain ⟨k0, v0⟩ := hd
    simp only [List.map_cons, List.nodup_cons] at hnd
    rcases List.mem_cons.1 hm with h | h
    · cases h
      simp [lookupF]
    · have hk : k0 ≠ k := by
        intro hkk
        exact hnd.1 (hkk ▸ (List.mem_map.2 ⟨(k, v), h, rfl⟩))
      simp [lookupF, hk, ih hnd.2 h]

/-- Two plain objects with literally the same field list (shared value
references key by key) are `shallowEqual`, whatever their identities. -/
theorem shallowEqual_same_fields {fs : List (String × JVal)}
    (hnd : (fs.map Prod.fst).Nodup) (i j : Nat) (p1 p2 : Option Nat) :
    shallowEqual (.obj i p1 fs) (.obj j p2 fs) = true := by
  unfold shallowEqual
  by_cases hij : jIs (.obj i p1 fs) (.obj j p2 fs) = true
  · simp [hij]
  · simp only [Bool.not_eq_true] at hij
    simp only [hij, Bool.false_eq_true, if_false, beq_self_eq_true,
      Bool.true_and, List.all_eq_true]
    intro kv hm
    rw [lookupF_of_nodup_mem hnd hm]
    exact jIs_refl kv.2

/-- C10: in the non-draft case over a plain-object old scoped value with
the replace flag false, a function-form partial that returns `undefined`
(a void updater, as `SetParameter` permits), with no postprocess hook
attached, is a complete no-op: the merge of `undefined` contributes
nothing, the recomputed value is shallow-equal to the old one, and the
updater returns the parent value unchanged, preserving the Root State
identity. -/
theorem createLens_void_fn_noop (env : PPEnv) (p : List String)
    (f : JVal → JVal) (args : List JVal) (rootGetVal : JVal) (fresh : Nat)
    (pv : JVal)
    (hplain : isPlainObject (getIn pv p) = true)
    (hnodraft : jIs (getIn pv p) (getIn rootGetVal p) = true)
    (hvoid : f (getIn pv p) = .undefined)
    (hnopp : ppOf (getIn pv p) = none)
    (hnodup : ((fieldsOf (getIn pv p)).map Prod.fst).Nodup) :
    lensUpdater env (some p) (.fn f) false args rootGetVal fresh pv =
      .ret pv := by
  obtain ⟨i, pp0, fs, ho⟩ : ∃ i pp0 fs, getIn pv p = .obj i pp0 fs := by
    rcases h : getIn pv p with _ | n | s | ⟨i, pp0, fs⟩ | oi <;>
      rw [h] at hplain <;> simp [isPlainObject] at hplain
    exact ⟨i, pp0, fs, rfl⟩
  rw [ho] at hnodraft hvoid hnopp hnodup
  have hpp0 : pp0 = none := by simpa [ppOf] using hnopp
  subst hpp0
  have hnd : (fs.map Prod.fst).Nodup := by simpa [fieldsOf] using hnodup
  have hnext : nextValueD env (some p) (.fn f) false args fresh pv =
      .obj (fresh + 1) none fs := by
    simp [nextValueD, projAt, ho, applyPartial, hvoid, isPlainObject,
      spread2, fieldsOf, ppOf, mergeF, runPP, Option.orElse]
  simp only [lensUpdater, projAt, ho, hnodraft, Bool.not_true,
    Bool.and_false, Bool.false_eq_true, if_false, hnext]
  simp [isSameJ, isPlainObject, shallowEqual_same_fields hnd]

/-- The void function-form partial of the C10 witness. -/
def fnVoid : JVal → JVal := fun _ => .undefined

/-- C10 witness: a void updater over `{id:1, prop:"abc"}` at `["sub"]`
returns the parent value unchanged. -/
theorem createLens_void_fn_noop_witness :
    isPlainObject (getIn pvW ["sub"]) = true
    ∧ jIs (getIn pvW ["sub"]) (getIn pvW ["sub"]) = true
    ∧ fnVoid (getIn pvW ["sub"]) = .undefined
    ∧ ppOf (getIn pvW ["sub"]) = none
    ∧ ((fieldsOf (getIn pvW ["sub"])).map Prod.fst).Nodup
    ∧ lensUpdater env0 (some ["sub"]) (.fn fnVoid) false [] pvW 50 pvW =
        .ret pvW :=
  ⟨rfl, rfl, rfl, rfl, by decide,
    createLens_void_fn_noop env0 ["sub"] fnVoid [] pvW 50 pvW rfl rfl rfl rfl
      (by decide)⟩

/-! ## Claim C4: structural sharing along the written path -/

/-- Two paths diverge when they first differ at some depth reached by
both: `p` and `q` share a (possibly empty) common prefix and then continue
with different keys.  A value at such a `q` is a sibling of the write
target at `p`, not an ancestor or descendant of it. -/
inductive Diverges : List String → List String → Prop where
  | head (a b : String) (p q : List String) :
      a ≠ b → Diverges (a :: p) (b :: q)
  | cons (k : String) (p q : List String) :
      Diverges p q → Diverges (k :: p) (k :: q)

theorem lookupF_setField_same (fs : List (String × JVal)) (k : String)
    (w : JVal) : lookupF (setField fs k w) k = some w := by
  induction fs with
  | nil => simp [setField, lookupF]
  | cons hd tl ih =>
    obtain ⟨k0, v0⟩ := hd
    by_cases h : k0 = k
    · subst h; simp [setField, lookupF]
    · simp [setField, lookupF, h, ih]

theorem lookupF_setField_other (fs : List (String × JVal)) (k k' : String)
    (h : k ≠ k') (w : JVal) :
    lookupF (setField fs k w) k' = lookupF fs k' := by
  induction fs with
  | nil => simp [setField, lookupF, h]
  | cons hd tl ih =>
    obtain ⟨k0, v0⟩ := hd
    by_cases h0 : k0 = k
    · subst h0; simp [setField, lookupF, h]
    · simp [setField, lookupF, h0, ih]

theorem childAt_setIn_same (v x : JVal) (fresh : Nat) (k : String)
    (ks : List String) :
    childAt (setIn fresh v (k :: ks) x) k =
      setIn (fresh + 1) (childAt v k) ks x := by
  simp [setIn, childAt, lookupF_setField_same]

theorem childAt_setIn_other (v x : JVal) (fresh : Nat) (k k' : String)
    (ks : List String) (h : k ≠ k') :
    childAt (setIn fresh v (k :: ks) x) k' = childAt v k' := by
  cases v <;>
    simp [setIn, childAt, fieldsOf, lookupF_setField_other _ _ _ h, lookupF, h]

/-- Sibling preservation of the splice: projecting the spliced value along
any path diverging from the written path yields the very same subterm
(same reference) as in the old value. -/
theorem getIn_setIn_diverges {p q : List String} (h : Diverges p q)
    (v x : JVal) (fresh : Nat) :
    getIn (setIn fresh v p x) q = getIn v q := by
  induction h generalizing v fresh with
  | head a b p q hab =>
    simp [getIn, childAt_setIn_other _ _ _ _ _ _ hab]
  | cons k p q hd ih =>
    simp [getIn, childAt_setIn_same, ih]

/-- The ancestor wrappers of the splice are the freshly allocated objects
`fresh`, `fresh+1`, …: the wrapper at depth `d` along the written path has
id `fresh + d`. -/
theorem idOf_getIn_setIn (v x : JVal) :
    ∀ (pre : List String) (k : String) (suf : List String) (fresh : Nat),
      idOf (getIn (setIn fresh v (pre ++ k :: suf) x) pre) =
        some (fresh + pre.length) := by
  intro pre
  induction pre generalizing v with
  | nil => intro k suf fresh; simp [setIn, getIn, idOf]
  | cons a pre ih =>
    intro k suf fresh
    have := ih (childAt v a) k suf (fresh + 1)
    simp only [List.cons_append, getIn, childAt_setIn_same, this,
      List.length_cons, Option.some.injEq]
    omega

/-- C4: when a scoped write at a path computes a changed value (non-draft,
not `isSame`), the updater returns the old root with the next value
spliced in at the path: every sibling subtree on a diverging path keeps
its reference identity, while each ancestor along the written path is
replaced by a newly allocated wrapper whose id occurs nowhere in the old
root value. -/
theorem createLens_path_isolation (env : PPEnv) (p : List String)
    (sp : SetParam) (replace : Bool) (args : List JVal) (rootGetVal : JVal)
    (fresh : Nat) (pv : JVal)
    (hnodraft : (isPlainObject (getIn pv p) &&
      !(jIs (getIn pv p) (getIn rootGetVal p))) = false)
    (hchanged : isSameJ (getIn pv p)
      (nextValueD env (some p) sp replace args fresh pv) = false)
    (hfresh : ∀ i, IdOccurs i pv → i < fresh) :
    lensUpdater env (some p) sp replace args rootGetVal fresh pv =
      .ret (setIn (fresh + 2) pv p
        (nextValueD env (some p) sp replace args fresh pv))
    ∧ (∀ q, Diverges p q →
        getIn (setIn (fresh + 2) pv p
          (nextValueD env (some p) sp replace args fresh pv)) q = getIn pv q)
    ∧ (∀ pre k suf, p = pre ++ k :: suf →
        idOf (getIn (setIn (fresh + 2) pv p
            (nextValueD env (some p) sp replace args fresh pv)) pre)
          = some (fresh + 2 + pre.length)
        ∧ ¬ IdOccurs (fresh + 2 + pre.length) pv) := by
  refine ⟨?_, ?_, ?_⟩
  · simp only [lensUpdater, projAt] at hnodraft hchanged ⊢
    simp [hnodraft, hchanged]
  · intro q hq
    exact getIn_setIn_diverges hq pv _ (fresh + 2)
  · intro pre k suf hpk
    refine ⟨by rw [hpk]; exact idOf_getIn_setIn pv _ pre k suf (fresh + 2), ?_⟩
    intro hocc
    have := hfresh _ hocc
    omega

theorem idOccurs_obj_iff (i j : Nat) (p : Option Nat)
    (fs : List (String × JVal)) :
    IdOccurs i (.obj j p fs) ↔ i = j ∨ ∃ k v, (k, v) ∈ fs ∧ IdOccurs i v := by
  constructor
  · intro h
    cases h with
    | objHere => exact Or.inl rfl
    | inField _ _ _ k v hm ho => exact Or.inr ⟨k, v, hm, ho⟩
  · rintro (rfl | ⟨k, v, hm, ho⟩)
    · exact .objHere ..
    · exact .inField _ _ _ _ _ _ hm ho

theorem idOccurs_other_iff (i j : Nat) : IdOccurs i (.other j) ↔ i = j := by
  constructor
  · intro h; cases h; rfl
  · rintro rfl; exact .otherHere _

theorem not_idOccurs_undefined (i : Nat) : ¬ IdOccurs i .undefined := by
  intro h; cases h

theorem not_idOccurs_prim (i : Nat) (n : Int) : ¬ IdOccurs i (.prim n) := by
  intro h; cases h

theorem not_idOccurs_str (i : Nat) (s : String) : ¬ IdOccurs i (.str s) := by
  intro h; cases h

/-- Root value of the C4 witness: `{a: {b: {v: 1}, sib: …}, c: …}` with
object ids 0‥4. -/
def pvC4 : JVal :=
  .obj 0 none
    [("a", .obj 1 none [("b", .obj 2 none [("v", .prim 1)]), ("sib", .other 3)]),
     ("c", .other 4)]

theorem pvC4_ids_lt : ∀ i, IdOccurs i pvC4 → i < 10 := by
  intro i h
  simp only [pvC4, idOccurs_obj_iff, idOccurs_other_iff, List.mem_cons,
    List.not_mem_nil, or_false, Prod.mk.injEq] at h
  rcases h with h | ⟨k, v, hkv | hkv, hv⟩
  · omega
  · rcases hkv with ⟨-, rfl⟩
    simp only [idOccurs_obj_iff, idOccurs_other_iff, List.mem_cons,
      List.not_mem_nil, or_false, Prod.mk.injEq] at hv
    rcases hv with h | ⟨k2, v2, hkv2 | hkv2, hv2⟩
    · omega
    · rcases hkv2 with ⟨-, rfl⟩
      simp only [idOccurs_obj_iff, idOccurs_other_iff, List.mem_cons,
        List.not_mem_nil, or_false, Prod.mk.injEq] at hv2
      rcases hv2 with h | ⟨k3, v3, hkv3, hv3⟩
      · omega
      · rcases hkv3 with ⟨-, rfl⟩
        exact absurd hv3 (not_idOccurs_prim _ _)
    · rcases hkv2 with ⟨-, rfl⟩
      rw [idOccurs_other_iff] at hv2
      omega
  · rcases hkv with ⟨-, rfl⟩
    rw [idOccurs_other_iff] at hv
    omega

/-- C4 witness: writing `{v: 2}` at `["a", "b"]` in `pvC4` splices the new
value in, preserves the diverging sibling `["c"]` by reference, and the
wrappers along `["a", "b"]` are newly allocated ids not occurring in
`pvC4`. -/
theorem createLens_path_isolation_witness :
    ((isPlainObject (getIn pvC4 ["a", "b"]) &&
        !(jIs (getIn pvC4 ["a", "b"]) (getIn pvC4 ["a", "b"]))) = false)
    ∧ (isSameJ (getIn pvC4 ["a", "b"])
        (nextValueD env0 (some ["a", "b"])
          (.val (.obj 5 none [("v", .prim 2)])) false [] 10 pvC4) = false)
    ∧ (lensUpdater env0 (some ["a", "b"]) (.val (.obj 5 none [("v", .prim 2)]))
        false [] pvC4 10 pvC4 =
        .ret (setIn 12 pvC4 ["a", "b"]
          (nextValueD env0 (some ["a", "b"])
            (.val (.obj 5 none [("v", .prim 2)])) false [] 10 pvC4))
      ∧ (∀ q, Diverges ["a", "b"] q →
          getIn (setIn 12 pvC4 ["a", "b"]
            (nextValueD env0 (some ["a", "b"])
              (.val (.obj 5 none [("v", .prim 2)])) false [] 10 pvC4)) q
            = getIn pvC4 q)
      ∧ (∀ pre k suf, ["a", "b"] = pre ++ k :: suf →
          idOf (getIn (setIn 12 pvC4 ["a", "b"]
              (nextValueD env0 (some ["a", "b"])
                (.val (.obj 5 none [("v", .prim 2)])) false [] 10 pvC4)) pre)
            = some (12 + pre.length)
          ∧ ¬ IdOccurs (12 + pre.length) pvC4)) :=
  ⟨rfl, rfl,
    createLens_path_isolation env0 ["a", "b"] (.val (.obj 5 none [("v", .prim 2)]))
      false [] pvC4 10 pvC4 rfl rfl pvC4_ids_lt⟩

/-! ## The atomic coordinator (src/core.ts lines 318-351)

`atomicImpl` keeps a nesting `counter` and a shadow `tempStore` seeded from
`get()` on the 0→1 transition.  `atomic(fn)` increments the counter, runs
`fn` inside a try/finally whose finally block decrements the counter and,
on reaching zero, commits `tempStore.getState()` through the real root
`set` — note that the commit sits in the finally block and therefore also
runs when `fn` throws.  `_set` redirects every write through
`atomic(() => tempStore.setState(...))`; `_get` returns the shadow value
while the counter is nonzero.  The interpreter below runs a deep-embedded
command (`Cmd`) against this machinery, logging every invocation of the
real root setter in `commits`. -/

/-- `typeof x === "object" && x !== null` for the values of the model. -/
def isObjLike : JVal → Bool
  | .obj _ _ _ => true
  | .other _ => true
  | _ => false

/-- zustand's `setState` on a container currently holding `cur`: apply a
function-form partial to the current value, do nothing if the next value
is `Object.is`-equal, replace wholesale when `replace` is true or the next
value is not object-like, and otherwise merge at the top level
(`Object.assign({}, cur, next)`, a fresh allocation).  Returns the new
container value and the advanced fresh-id supply. -/
def zSetState (fresh : Nat) (cur : JVal) (sp : SetParam) (replace : Bool) :
    JVal × Nat :=
  let next := applyPartial sp cur
  if jIs next cur then (cur, fresh)
  else if replace || !(isObjLike next) then (next, fresh)
  else (spread2 fresh cur next, fresh + 1)

/-- State of one root store wrapped by the atomic middleware: the nesting
counter, the real store value, the shadow (`tempStore`) value, the fresh-id
supply, and the log of values the real root setter has been invoked with. -/
structure AtomSt where
  counter : Nat
  root : JVal
  shadow : JVal
  fresh : Nat
  commits : List JVal

/-- Entering `atomic(fn)`: `++counter`, and on the 0→1 transition seed the
shadow container with `tempStore.setState(get())`. -/
def enterA (σ : AtomSt) : AtomSt :=
  if σ.counter = 0 then
    { σ with
        counter := 1
        shadow := (zSetState σ.fresh σ.shadow (.val σ.root) false).1
        fresh := (zSetState σ.fresh σ.shadow (.val σ.root) false).2 }
  else { σ with counter := σ.counter + 1 }

/-- The finally block of `atomic(fn)`: `--counter`, and on the 1→0
transition invoke the real root setter with `tempStore.getState()` (logged
in `commits`) — this block runs whether or not `fn` threw. -/
def leaveA (σ : AtomSt) : AtomSt :=
  if σ.counter = 1 then
    { σ with
        counter := 0
        root := (zSetState σ.fresh σ.root (.val σ.shadow) false).1
        fresh := (zSetState σ.fresh σ.root (.val σ.shadow) false).2
        commits := σ.commits ++ [σ.shadow] }
  else { σ with counter := σ.counter - 1 }

/-- `tempStore.setState(...)`: the redirected write applied to the shadow
container. -/
def writeShadow (σ : AtomSt) (sp : SetParam) (replace : Bool) : AtomSt :=
  { σ with
      shadow := (zSetState σ.fresh σ.shadow sp replace).1
      fresh := (zSetState σ.fresh σ.shadow sp replace).2 }

/-- A synchronous body run against the atomic middleware: a write through
the wrapped `_set`, a nested `atomic(fn)` block, sequencing, and a thrown
error (`fail`, which aborts the rest of a sequence but still unwinds
through every enclosing finally block). -/
inductive Cmd where
  | skip
  | fail
  | write (sp : SetParam) (replace : Bool)
  | atomicDo (c : Cmd)
  | seq (a b : Cmd)

/-- Run a command; the Bool is false when an error is propagating.  `write`
is `atomic(() => tempStore.setState(...))`; `atomicDo` wraps its body in
enter/finally-leave, applying the leave (and hence the potential commit)
to whatever state the body reached, error or not. -/
def exec : Cmd → AtomSt → AtomSt × Bool
  | .skip, σ => (σ, true)
  | .fail, σ => (σ, false)
  | .write sp r, σ => (leaveA (writeShadow (enterA σ) sp r), true)
  | .atomicDo c, σ => (leaveA (exec c (enterA σ)).1, (exec c (enterA σ)).2)
  | .seq a b, σ =>
    if (exec a σ).2 then exec b (exec a σ).1 else ((exec a σ).1, false)

/-- The wrapped `_get`: the shadow value while the counter is nonzero, the
real store value otherwise (src/core.ts line 340). -/
def aGet (σ : AtomSt) : JVal :=
  if σ.counter = 0 then σ.root else σ.shadow

/-- While a session is open (counter ≥ 1), running any body leaves the
counter, the real store value and the root-setter log untouched: all
effects stay inside the shadow container, and even errors unwind with the
counter restored. -/
theorem enterA_pos (σ : AtomSt) (h : ¬ σ.counter = 0) :
    enterA σ = { σ with counter := σ.counter + 1 } := by
  simp [enterA, h]

theorem leaveA_ne_one (σ : AtomSt) (h : ¬ σ.counter = 1) :
    leaveA σ = { σ with counter := σ.counter - 1 } := by
  simp [leaveA, h]

theorem exec_in_session (c : Cmd) : ∀ σ : AtomSt, 1 ≤ σ.counter →
    (exec c σ).1.counter = σ.counter ∧ (exec c σ).1.root = σ.root
      ∧ (exec c σ).1.commits = σ.commits := by
  induction c with
  | skip => exact fun σ h => ⟨rfl, rfl, rfl⟩
  | fail => exact fun σ h => ⟨rfl, rfl, rfl⟩
  | write sp r =>
    intro σ h
    have h0 : ¬ σ.counter = 0 := by omega
    rw [show exec (.write sp r) σ
        = (leaveA (writeShadow (enterA σ) sp r), true) from rfl]
    rw [enterA_pos σ h0]
    have hw : ¬ (writeShadow { σ with counter := σ.counter + 1 } sp r).counter
        = 1 := by
      simp only [writeShadow]
      omega
    rw [leaveA_ne_one _ hw]
    refine ⟨?_, ?_, ?_⟩ <;> simp [writeShadow]
  | atomicDo c ih =>
    intro σ h
    have h0 : ¬ σ.counter = 0 := by omega
    rw [show exec (.atomicDo c) σ
        = (leaveA (exec c (enterA σ)).1, (exec c (enterA σ)).2) from rfl]
    rw [enterA_pos σ h0]
    obtain ⟨hc, hr, hcm⟩ := ih { σ with counter := σ.counter + 1 }
      (by show 1 ≤ σ.counter + 1; omega)
    have hc2 : (exec c { σ with counter := σ.counter + 1 }).1.counter
        = σ.counter + 1 := by simpa using hc
    rw [leaveA_ne_one _ (by omega)]
    refine ⟨?_, ?_, ?_⟩
    · simp [hc2]
    · simpa using hr
    · simpa using hcm
  | seq a b iha ihb =>
    intro σ h
    obtain ⟨hca, hra, hcma⟩ := iha σ h
    rw [show exec (.seq a b) σ
        = if (exec a σ).2 then exec b (exec a σ).1 else ((exec a σ).1, false)
        from rfl]
    by_cases hok : (exec a σ).2 = true
    · obtain ⟨hcb, hrb, hcmb⟩ := ihb (exec a σ).1 (by omega)
      rw [if_pos hok]
      exact ⟨hcb.trans hca, hrb.trans hra, hcmb.trans hcma⟩
    · rw [if_neg hok]
      exact ⟨hca, hra, hcma⟩

theorem leaveA_of_one (σ : AtomSt) (h : σ.counter = 1) :
    (leaveA σ).commits = σ.commits ++ [σ.shadow]
    ∧ (leaveA σ).counter = 0
    ∧ (leaveA σ).root = (zSetState σ.fresh σ.root (.val σ.shadow) false).1 := by
  simp [leaveA, h]

theorem enterA_root (σ : AtomSt) : (enterA σ).root = σ.root := by
  unfold enterA
  split <;> rfl

theorem enterA_commits (σ : AtomSt) : (enterA σ).commits = σ.commits := by
  unfold enterA
  split <;> rfl

theorem enterA_counter_of_zero (σ : AtomSt) (h : σ.counter = 0) :
    (enterA σ).counter = 1 := by
  simp [enterA, h]

/-- C5: inside one `atomic(fn)` session (nested and reentrant calls
included): starting the outermost block from a quiescent store
(counter 0) with a body that does not throw, the real root setter is
invoked exactly once — exactly one value is appended to the commit log,
namely the shadow container's final state, applied to the real store on
the 1→0 transition; moreover every write issued while the counter is
nonzero redirects to the shadow container (real store value, commit log
and counter untouched), a read right after such a write observes the
write's effect immediately, and `get()` returns the shadow value whenever
the counter is nonzero. -/
theorem atomic_single_commit_and_redirect (c : Cmd) (σ : AtomSt)
    (hzero : σ.counter = 0)
    (hok : (exec c (enterA σ)).2 = true) :
    ((exec (.atomicDo c) σ).1.commits
        = σ.commits ++ [(exec c (enterA σ)).1.shadow]
      ∧ (exec (.atomicDo c) σ).1.root
        = (zSetState (exec c (enterA σ)).1.fresh σ.root
            (.val (exec c (enterA σ)).1.shadow) false).1
      ∧ (exec (.atomicDo c) σ).1.counter = 0
      ∧ (exec (.atomicDo c) σ).2 = true)
    ∧ (∀ τ : AtomSt, 1 ≤ τ.counter → ∀ sp r,
        (exec (.write sp r) τ).1.root = τ.root
        ∧ (exec (.write sp r) τ).1.commits = τ.commits
        ∧ (exec (.write sp r) τ).1.counter = τ.counter
        ∧ (exec (.write sp r) τ).1.shadow = (zSetState τ.fresh τ.shadow sp r).1
        ∧ aGet (exec (.write sp r) τ).1 = (zSetState τ.fresh τ.shadow sp r).1)
    ∧ (∀ τ : AtomSt, 1 ≤ τ.counter → aGet τ = τ.shadow) := by
  refine ⟨?_, ?_, ?_⟩
  · obtain ⟨hc, hr, hcm⟩ := exec_in_session c (enterA σ)
      (by rw [enterA_counter_of_zero σ hzero])
    have hc1 : (exec c (enterA σ)).1.counter = 1 :=
      hc.trans (enterA_counter_of_zero σ hzero)
    obtain ⟨hl1, hl2, hl3⟩ := leaveA_of_one (exec c (enterA σ)).1 hc1
    rw [show exec (.atomicDo c) σ
        = (leaveA (exec c (enterA σ)).1, (exec c (enterA σ)).2) from rfl]
    refine ⟨?_, ?_, hl2, hok⟩
    · rw [hl1, hcm, enterA_commits]
    · rw [hl3, hr, enterA_root]
  · intro τ hτ sp r
    have h0 : ¬ τ.counter = 0 := by omega
    rw [show exec (.write sp r) τ
        = (leaveA (writeShadow (enterA τ) sp r), true) from rfl]
    rw [enterA_pos τ h0]
    have hw : ¬ (writeShadow { τ with counter := τ.counter + 1 } sp r).counter
        = 1 := by
      simp only [writeShadow]
      omega
    rw [leaveA_ne_one _ hw]
    refine ⟨?_, ?_, ?_, ?_, ?_⟩ <;> simp [writeShadow, aGet, h0]
  · intro τ hτ
    have h0 : ¬ τ.counter = 0 := by omega
    simp [aGet, h0]

/-- Quiescent store of the C5 witness: `{x: 0, y: 0}`, empty commit log. -/
def σ5 : AtomSt :=
  ⟨0, .obj 0 none [("x", .prim 0), ("y", .prim 0)], .undefined, 10, []⟩

/-- C5 witness body: two sequential slice-style writes. -/
def c5body : Cmd :=
  .seq (.write (.val (.obj 1 none [("x", .prim 1)])) false)
    (.write (.val (.obj 2 none [("y", .prim 2)])) false)

/-- C5 witness: two writes inside one atomic block commit exactly once,
with the shadow's final state `{x: 1, y: 2}`. -/
theorem atomic_single_commit_and_redirect_witness :
    σ5.counter = 0
    ∧ (exec c5body (enterA σ5)).2 = true
    ∧ (((exec (.atomicDo c5body) σ5).1.commits
          = σ5.commits ++ [(exec c5body (enterA σ5)).1.shadow]
        ∧ (exec (.atomicDo c5body) σ5).1.root
          = (zSetState (exec c5body (enterA σ5)).1.fresh σ5.root
              (.val (exec c5body (enterA σ5)).1.shadow) false).1
        ∧ (exec (.atomicDo c5body) σ5).1.counter = 0
        ∧ (exec (.atomicDo c5body) σ5).2 = true)
      ∧ (∀ τ : AtomSt, 1 ≤ τ.counter → ∀ sp r,
          (exec (.write sp r) τ).1.root = τ.root
          ∧ (exec (.write sp r) τ).1.commits = τ.commits
          ∧ (exec (.write sp r) τ).1.counter = τ.counter
          ∧ (exec (.write sp r) τ).1.shadow
            = (zSetState τ.fresh τ.shadow sp r).1
          ∧ aGet (exec (.write sp r) τ).1
            = (zSetState τ.fresh τ.shadow sp r).1)
      ∧ (∀ τ : AtomSt, 1 ≤ τ.counter → aGet τ = τ.shadow)) :=
  ⟨rfl, rfl, atomic_single_commit_and_redirect c5body σ5 rfl rfl⟩

/-- Quiescent store of the C6 refutation: `{x: 0}`, empty commit log. -/
def σ6 : AtomSt := ⟨0, .obj 0 none [("x", .prim 0)], .undefined, 10, []⟩

/-- C6 body: one write, then a thrown error. -/
def c6body : Cmd :=
  .seq (.write (.val (.obj 1 none [("x", .prim 1)])) false) .fail

/-- C6 counterexample: the claim asserts that when the callback throws,
the partial shadow state is never committed to the real root container.
Here the body writes `{x: 1}` into the shadow and then throws; the error
propagates (ok = false) and the counter is released, but the finally
block of `atomic` nevertheless invokes the real root setter with the
partial shadow state `{x: 1}` on the 1→0 transition — the commit log is
not empty, refuting the never-committed part of the claim. -/
theorem atomic_throw_commits_counterexample :
    (exec (.atomicDo c6body) σ6).2 = false
    ∧ (exec (.atomicDo c6body) σ6).1.counter = 0
    ∧ (exec (.atomicDo c6body) σ6).1.commits
        = [.obj 11 none [("x", .prim 1)]]
    ∧ (exec (.atomicDo c6body) σ6).1.commits ≠ [] :=
  ⟨rfl, rfl, rfl, fun h =>
    absurd ((rfl : (exec (.atomicDo c6body) σ6).1.commits
        = [JVal.obj 11 none [("x", JVal.prim 1)]]).symm.trans h)
      (List.cons_ne_nil _ _)⟩

/-- C6 amended: if the callback of the outermost `atomic(fn)` throws, the
finally block still decrements the counter, so the session is never
wedged with a nonzero counter; however the same finally block also
performs the 1→0 commit, so the partial shadow state accumulated before
the error IS committed to the real root container (the root setter is
invoked once with the shadow's state at the moment of unwinding), rather
than being discarded. -/
theorem atomic_throw_releases_and_commits (c : Cmd) (σ : AtomSt)
    (hzero : σ.counter = 0)
    (hfail : (exec c (enterA σ)).2 = false) :
    (exec (.atomicDo c) σ).2 = false
    ∧ (exec (.atomicDo c) σ).1.counter = 0
    ∧ (exec (.atomicDo c) σ).1.commits
        = σ.commits ++ [(exec c (enterA σ)).1.shadow] := by
  obtain ⟨hc, hr, hcm⟩ := exec_in_session c (enterA σ)
    (by rw [enterA_counter_of_zero σ hzero])
  have hc1 : (exec c (enterA σ)).1.counter = 1 :=
    hc.trans (enterA_counter_of_zero σ hzero)
  obtain ⟨hl1, hl2, hl3⟩ := leaveA_of_one (exec c (enterA σ)).1 hc1
  rw [show exec (.atomicDo c) σ
      = (leaveA (exec c (enterA σ)).1, (exec c (enterA σ)).2) from rfl]
  refine ⟨hfail, hl2, ?_⟩
  rw [hl1, hcm, enterA_commits]

/-- C6 amended witness: at the concrete throwing body, the counter is
released and the partial shadow `{x: 1}` is committed. -/
theorem atomic_throw_releases_and_commits_witness :
    σ6.counter = 0
    ∧ (exec c6body (enterA σ6)).2 = false
    ∧ ((exec (.atomicDo c6body) σ6).2 = false
      ∧ (exec (.atomicDo c6body) σ6).1.counter = 0
      ∧ (exec (.atomicDo c6body) σ6).1.commits
          = σ6.commits ++ [(exec c6body (enterA σ6)).1.shadow]) :=
  ⟨rfl, rfl, atomic_throw_releases_and_commits c6body σ6 rfl rfl⟩

/-! ## The tree walker `findLensAndCreate` (src/core.ts lines 181-246)

The walker descends a state-definition tree, replacing every slice marker
found under a string key by its realized object and recursing, while
copying symbol-keyed metadata entries through unchanged and leaving
non-plain values (markers included, since a marker is a function) alone.
The `set`/`get` closures it threads do not affect the shape of the output;
a marker's realization is modelled as the tree its initializer returns.
The `rootPath`/`relativePath` bookkeeping is kept to mirror the source:
both paths extend at each string key, and `relativePath` resets to empty
when a marker is crossed. -/

/-- The `rootPath`/`relativePath` pair of the walk context. -/
structure WalkCtx where
  rootPath : List String
  relativePath : List String

mutual
/-- A node of the state-definition tree: a non-plain value (returned
unchanged), a slice marker produced by `lens` (carrying the tree its
initializer realizes to), or a plain mapping with ordered string-keyed
children and symbol-keyed metadata entries (numeric symbol ids holding
opaque values). -/
inductive DefTree where
  | nonPlain (v : JVal)
  | marker (realized : DefTree)
  | plain (fields : DefFields) (syms : List (Nat × JVal))
/-- Ordered string-keyed children of a plain definition node. -/
inductive DefFields where
  | nil
  | cons (k : String) (t : DefTree) (rest : DefFields)
end

mutual
/-- `findLensAndCreate`: non-plain values (top-level markers included) are
returned unchanged; a plain mapping is rebuilt key by key, recursing under
string keys (realizing markers first, with `relativePath` reset) and
copying symbol-keyed entries verbatim without recursion. -/
def findLensAndCreate : DefTree → WalkCtx → DefTree
  | .nonPlain v, _ => .nonPlain v
  | .marker r, _ => .marker r
  | .plain fs syms, ctx => .plain (findLensAndCreateFields fs ctx) syms
/-- The per-key loop of `findLensAndCreate` over the string-keyed
children. -/
def findLensAndCreateFields : DefFields → WalkCtx → DefFields
  | .nil, _ => .nil
  | .cons k (.marker r) rest, ctx =>
    .cons k (findLensAndCreate r ⟨ctx.rootPath ++ [k], []⟩)
      (findLensAndCreateFields rest ctx)
  | .cons k t rest, ctx =>
    .cons k
      (findLensAndCreate t ⟨ctx.rootPath ++ [k], ctx.relativePath ++ [k]⟩)
      (findLensAndCreateFields rest ctx)
end

mutual
/-- Spec-side description of the walk result: the input tree with every
marker under a string key replaced, recursively, by its realized object —
no context, no accessor plumbing. -/
def resolveT : DefTree → DefTree
  | .nonPlain v => .nonPlain v
  | .marker r => .marker r
  | .plain fs syms => .plain (resolveF fs) syms
/-- Marker substitution over the string-keyed children. -/
def resolveF : DefFields → DefFields
  | .nil => .nil
  | .cons k (.marker r) rest => .cons k (resolveT r) (resolveF rest)
  | .cons k t rest => .cons k (resolveT t) (resolveF rest)
end

mutual
/-- The key structure of a tree: string keys with child shapes plus the
symbol keys present, everything else erased. -/
inductive Shape where
  | leaf
  | node (fields : ShapeFields) (syms : List Nat)
/-- Shapes of the string-keyed children. -/
inductive ShapeFields where
  | nil
  | cons (k : String) (s : Shape) (rest : ShapeFields)
end

mutual
/-- Shape of a definition tree. -/
def shapeT : DefTree → Shape
  | .nonPlain _ => .leaf
  | .marker _ => .leaf
  | .plain fs syms => .node (shapeF fs) (syms.map Prod.fst)
/-- Shapes of the string-keyed children, in order. -/
def shapeF : DefFields → ShapeFields
  | .nil => .nil
  | .cons k t rest => .cons k (shapeT t) (shapeF rest)
end

/-- The symbol-keyed entries of a plain node. -/
def symsOf : DefTree → List (Nat × JVal)
  | .plain _ syms => syms
  | _ => []

mutual
theorem findLensAndCreate_shape :
    ∀ (t : DefTree) (ctx : WalkCtx),
      shapeT (findLensAndCreate t ctx) = shapeT (resolveT t)
  | .nonPlain v, ctx => by simp [findLensAndCreate, resolveT]
  | .marker r, ctx => by simp [findLensAndCreate, resolveT]
  | .plain fs syms, ctx => by
    simp [findLensAndCreate, resolveT, shapeT,
      findLensAndCreateFields_shape fs ctx]
theorem findLensAndCreateFields_shape :
    ∀ (fs : DefFields) (ctx : WalkCtx),
      shapeF (findLensAndCreateFields fs ctx) = shapeF (resolveF fs)
  | .nil, ctx => by simp [findLensAndCreateFields, resolveF]
  | .cons k (.nonPlain v) rest, ctx => by
    simp [findLensAndCreateFields, resolveF, shapeF,
      findLensAndCreate_shape (.nonPlain v) _,
      findLensAndCreateFields_shape rest ctx]
  | .cons k (.marker r) rest, ctx => by
    simp [findLensAndCreateFields, resolveF, shapeF,
      findLensAndCreate_shape r _,
      findLensAndCreateFields_shape rest ctx]
  | .cons k (.plain f2 s2) rest, ctx => by
    simp [findLensAndCreateFields, resolveF, shapeF,
      findLensAndCreate_shape (.plain f2 s2) _,
      findLensAndCreateFields_shape rest ctx]
end

/-- C8: for every input tree, the walker's output has exactly the key
structure of the input with every slice marker replaced by its realized
object (no keys added or removed, at any nesting depth, whatever the walk
context); every non-plain value is returned unchanged and never descended
into; and the symbol-keyed metadata entries of a plain node are copied
through verbatim, without recursion. -/
theorem findLensAndCreate_mirrors_input :
    (∀ (t : DefTree) (ctx : WalkCtx),
        shapeT (findLensAndCreate t ctx) = shapeT (resolveT t))
    ∧ (∀ (v : JVal) (ctx : WalkCtx),
        findLensAndCreate (.nonPlain v) ctx = .nonPlain v)
    ∧ (∀ (fs : DefFields) (syms : List (Nat × JVal)) (ctx : WalkCtx),
        symsOf (findLensAndCreate (.plain fs syms) ctx) = syms) :=
  ⟨findLensAndCreate_shape, fun v ctx => by simp [findLensAndCreate],
    fun fs syms ctx => by simp [findLensAndCreate, symsOf]⟩
